import Mathlib

/-!
Verification of the Node.js (Yarn) backend of `upm`
(`internal/backends/nodejs/nodejs.go`).

Go strings are embedded as `List Char`.  The pure text-processing parts of
the backend — the import-specifier normalizer inside `Guess`, the yarn.lock
pin extractor inside `ListLockfile` (a faithful model of the fixed Go regex
`(?m)^"?([^@ \n]+).+:\n  version "(.+)"$` under Go's leftmost-first
semantics), the `package.json` dependency merge of `ListSpecfile`, and the
latest-version selection inside `Info` — are translated below, and the spec's
claims about them are proved as theorems.
-/

namespace Upm

/-- Go strings, embedded as lists of characters. -/
abbrev Str := List Char

/-- Helper for `splitChar`: prepend a character to the first piece. -/
def consHead (c : Char) : List (List Char) → List (List Char)
  | [] => [[c]]
  | g :: gs => (c :: g) :: gs

/-- `strings.Split(l, sep)` for a one-character separator `sep`:
splits `l` at every occurrence of `sep`; always returns at least one
(possibly empty) piece. -/
def splitChar (sep : Char) : List Char → List (List Char)
  | [] => [[]]
  | c :: rest =>
    if c = sep then [] :: splitChar sep rest
    else consHead c (splitChar sep rest)

/-- `strings.Join(gs, sep)` for a one-character separator. -/
def intercalateChar (sep : Char) : List (List Char) → List Char
  | [] => []
  | [g] => g
  | g :: h :: t => g ++ sep :: intercalateChar sep (h :: t)

/-! ## The specifier normalizer (`Guess`, nodejs.go lines 255–272) -/

/-- The loader-stripping step of `Guess`: if the raw specifier contains `!`,
keep only what follows the last `!`
(`parts := strings.Split(module, "!"); module = parts[len(parts)-1]`). -/
def stripLoaders (m : Str) : Str :=
  if '!' ∈ m then (splitChar '!' m).getLastD [] else m

/-- The part of `Guess`'s per-match normalization that runs after loader
stripping: skip relative specifiers (`strings.HasPrefix(module, ".")`);
collapse path-qualified specifiers to their first segment, or to their
first two segments when scope-qualified (`strings.HasPrefix(module, "@")`). -/
def normPost (m : Str) : Option Str :=
  if m.head? = some '.' then none
  else if '/' ∈ m then
    (if m.head? = some '@' then some (intercalateChar '/' ((splitChar '/' m).take 2))
     else some ((splitChar '/' m).headD []))
  else some m

/-- The full per-match normalization of `Guess` (nodejs.go lines 255–272):
loader stripping, then relative-path rejection, then path collapsing. -/
def normalizeSpec (m : Str) : Option Str := normPost (stripLoaders m)

/-! ## The import extractor (`Guess`, nodejs.go lines 239–249)

A faithful model of Go `regexp` (leftmost-first, Perl-style preference)
restricted to the three fixed alternatives joined in `Guess`:

  1. `(?m)from\s*['"]([^'"]+)['"]\s*;?\s*$`
  2. `(?m)import\s*['"]([^'"]+)['"]\s*;?\s*$`
  3. `(?m)(?:require|import)\s*\(\s*['"]([^'"{}]+)['"]\s*\)`

Every repetition in these patterns ranges over a one-character class, so a
continuation-passing backtracking matcher with greedy (longest-first)
repetition is an exact implementation of the Go semantics. -/

/-- Try repetition counts `n, n-1, …, 0` in order, first success wins
(greedy backtracking). -/
def tryLens {α : Type} (k : Nat → Option α) : Nat → Option α
  | 0 => k 0
  | n + 1 =>
    match k (n + 1) with
    | some a => some a
    | none => tryLens k n

/-- Match a literal string, then continue. -/
def litK {α : Type} : Str → Str → (Str → Option α) → Option α
  | [], s, k => k s
  | c :: cs, s, k =>
    match s with
    | d :: ds => if d = c then litK cs ds k else none
    | [] => none

/-- Match one character of a class, then continue. -/
def clsK {α : Type} (p : Char → Bool) (s : Str) (k : Str → Option α) : Option α :=
  match s with
  | d :: ds => if p d then k ds else none
  | [] => none

/-- Greedy `[p]*`, then continue (longest repetition preferred). -/
def starK {α : Type} (p : Char → Bool) (s : Str) (k : Str → Option α) : Option α :=
  tryLens (fun n => k (s.drop n)) (s.takeWhile p).length

/-- Greedy `c?`, then continue (consuming preferred). -/
def optK {α : Type} (p : Char → Bool) (s : Str) (k : Str → Option α) : Option α :=
  match s with
  | d :: ds =>
    if p d then
      match k ds with
      | some a => some a
      | none => k s
    else k s
  | [] => k s

/-- Greedy capturing `([p]+)`, then continue with the captured characters
(longest capture preferred, at least one character). -/
def plusCapK {α : Type} (p : Char → Bool) (s : Str) (k : Str → Str → Option α) :
    Option α :=
  tryLens (fun i => if i = 0 then none else k (s.take i) (s.drop i))
    (s.takeWhile p).length

/-- `(?m)$`: at end of text or just before a newline. -/
def eolP : Str → Bool
  | [] => true
  | c :: _ => c = '\n'

/-- Go `\s`: the class `[\t\n\f\r ]`. -/
def isSpaceGo (c : Char) : Bool :=
  c = ' ' || c = '\t' || c = '\n' || c = '\x0c' || c = '\r'

/-- The class `['"]`. -/
def isQuoteC (c : Char) : Bool := c = '\x27' || c = '"'

/-- The class `[^'"]`. -/
def notQuoteC (c : Char) : Bool := !(isQuoteC c)

/-- The class `[^'"{}]` (no quote, no brace). -/
def notQuoteBrace (c : Char) : Bool :=
  !(isQuoteC c || c = '\x7b' || c = '\x7d')

/-- Alternative 1, `from\s*['"]([^'"]+)['"]\s*;?\s*$`: returns the capture
and the rest of the text after the match. -/
def pFrom (s : Str) : Option (Str × Str) :=
  litK ['f', 'r', 'o', 'm'] s fun s1 =>
  starK isSpaceGo s1 fun s2 =>
  clsK isQuoteC s2 fun s3 =>
  plusCapK notQuoteC s3 fun cap s4 =>
  clsK isQuoteC s4 fun s5 =>
  starK isSpaceGo s5 fun s6 =>
  optK (fun c => c = ';') s6 fun s7 =>
  starK isSpaceGo s7 fun s8 =>
  if eolP s8 then some (cap, s8) else none

/-- Alternative 2, `import\s*['"]([^'"]+)['"]\s*;?\s*$`. -/
def pImport (s : Str) : Option (Str × Str) :=
  litK ['i', 'm', 'p', 'o', 'r', 't'] s fun s1 =>
  starK isSpaceGo s1 fun s2 =>
  clsK isQuoteC s2 fun s3 =>
  plusCapK notQuoteC s3 fun cap s4 =>
  clsK isQuoteC s4 fun s5 =>
  starK isSpaceGo s5 fun s6 =>
  optK (fun c => c = ';') s6 fun s7 =>
  starK isSpaceGo s7 fun s8 =>
  if eolP s8 then some (cap, s8) else none

/-- The common tail of alternative 3 after the `require`/`import` keyword:
`\s*\(\s*['"]([^'"{}]+)['"]\s*\)`. -/
def pCallTail (s : Str) : Option (Str × Str) :=
  starK isSpaceGo s fun s1 =>
  clsK (fun c => c = '(') s1 fun s2 =>
  starK isSpaceGo s2 fun s3 =>
  clsK isQuoteC s3 fun s4 =>
  plusCapK notQuoteBrace s4 fun cap s5 =>
  clsK isQuoteC s5 fun s6 =>
  starK isSpaceGo s6 fun s7 =>
  clsK (fun c => c = ')') s7 fun s8 => some (cap, s8)

/-- Alternative 3, `(?:require|import)\s*\(\s*['"]([^'"{}]+)['"]\s*\)`
(`require` preferred, as written first in the alternation). -/
def pCall (s : Str) : Option (Str × Str) :=
  match litK ['r', 'e', 'q', 'u', 'i', 'r', 'e'] s pCallTail with
  | some r => some r
  | none => litK ['i', 'm', 'p', 'o', 'r', 't'] s pCallTail

/-- The full alternation, in the order the three patterns are joined with
`|` in `Guess` (leftmost-first preference among alternatives). -/
def alt3 (s : Str) : Option (Str × Str) :=
  match pFrom s with
  | some r => some r
  | none =>
    match pImport s with
    | some r => some r
    | none => pCall s

/-- `FindAllStringSubmatch` for the joined pattern: scan left to right,
emit each match's capture, resume after the end of the match.  `fuel`
bounds the recursion; every step consumes at least one character, so
`fuel = s.length` is always sufficient. -/
def scanAll : Nat → Str → List Str
  | 0, _ => []
  | _ + 1, [] => []
  | fuel + 1, c :: rest =>
    match alt3 (c :: rest) with
    | some (cap, s2) => cap :: scanAll fuel s2
    | none => scanAll fuel rest

/-- Modelled from the spec: `util.SearchRecursive` (package `internal/util`,
not part of the sources at hand) applies the joined pattern to the text of
each source file and yields every submatch, in file order then match order;
per match exactly one capture group is non-empty and
`strings.Join(match[1:], "")` is that capture. -/
def extractRaw (text : Str) : List Str := scanAll text.length text

/-- `pkgs[module] = true` on a Go map modelled as an insertion-ordered
duplicate-free list. -/
def insertSet (acc : List Str) (x : Str) : List Str :=
  if x ∈ acc then acc else acc ++ [x]

/-- The candidate set built by the match loop of `Guess`
(nodejs.go lines 250–273): extract raw specifiers from every file,
normalize each, skip relative ones, insert the rest. -/
def guessPkgs (files : List Str) : List Str :=
  (files.flatMap extractRaw).foldl
    (fun acc m =>
      match normalizeSpec m with
      | none => acc
      | some p => insertSet acc p)
    []

/-- The built-in filter loop of `Guess` (nodejs.go lines 275–281): delete
each built-in module name from the candidate set, by exact equality.  The
built-in name list itself comes from running `node` out of process, so it
is a parameter here. -/
def guessResult (files builtins : List Str) : List Str :=
  builtins.foldl (fun acc b => acc.filter (fun n => decide (n ≠ b))) (guessPkgs files)

/-! ## The lockfile pin extractor (`ListLockfile`, nodejs.go lines 216–230)

The Go code runs `FindAllStringSubmatch` with the fixed regex
`(?m)^"?([^@ \n]+).+:\n  version "(.+)"$`.  A match must start at a line
start (`^`), consume an entire line ending in `:` (nothing in
`"?([^@ \n]+).+` can match a newline, and the next pattern character is a
literal `\n`), and then consume an entire following line of the shape
`  version "…"` (the closing `"` is pinned to the line end by `$`).  So
matching is equivalent to scanning consecutive line pairs; after a match
the scan resumes at the line following the version line. -/

/-- The character class `[^@ \n]` of the lockfile regex. -/
def isClassPin (c : Char) : Bool := !(c = '@' || c = ' ' || c = '\n')

/-- Greedy-with-backtracking match of `([^@ \n]+).+` against all of `s`
(a line fragment, so `.` accepts every remaining character): the capture is
the longest class run that still leaves at least one character for `.+`. -/
def tryG1 (s : Str) : Option Str :=
  if 1 ≤ min (s.takeWhile isClassPin).length (s.length - 1)
  then some (s.take (min (s.takeWhile isClassPin).length (s.length - 1)))
  else none

/-- Match `"?([^@ \n]+).+` against all of `M` (the header line without its
final `:`): the optional quote is consumed when present (greedy `?`), with
backtracking to the unquoted reading when that fails. -/
def matchHeader (M : Str) : Option Str :=
  if M.head? = some '"' then
    match tryG1 M.tail with
    | some g => some g
    | none => tryG1 M
  else tryG1 M

/-- Drop a literal prefix, or fail. -/
def dropLit : Str → Str → Option Str
  | [], s => some s
  | _ :: _, [] => none
  | c :: cs, d :: ds => if d = c then dropLit cs ds else none

/-- The literal `  version "` that must open the version line. -/
def versionLit : Str := [' ', ' ', 'v', 'e', 'r', 's', 'i', 'o', 'n', ' ', '"']

/-- Match `  version "(.+)"$` against the whole line `l2`: after the
literal, the line must end in `"` with a non-empty capture before it. -/
def matchVersionLine (l2 : Str) : Option Str :=
  match dropLit versionLit l2 with
  | none => none
  | some rest =>
    if rest.getLast? = some '"' ∧ 2 ≤ rest.length then some rest.dropLast
    else none

/-- One candidate match of the lockfile regex at a line start: the header
line must end in `:` and the next line must be a version line. -/
def matchBlock (l1 l2 : Str) : Option (Str × Str) :=
  if l1.getLast? = some ':' then
    match matchHeader l1.dropLast with
    | none => none
    | some name =>
      match matchVersionLine l2 with
      | none => none
      | some ver => some (name, ver)
  else none

/-- `FindAllStringSubmatch` of the lockfile regex over the text's lines:
scan line starts left to right; a match consumes its two lines. -/
def findPinMatches : List Str → List (Str × Str)
  | [] => []
  | [_] => []
  | l1 :: l2 :: rest =>
    match matchBlock l1 l2 with
    | some nv => nv :: findPinMatches rest
    | none => findPinMatches (l2 :: rest)

/-- The empty Go map, modelled as a function. -/
def emptyMap : Str → Option Str := fun _ => none

/-- Go map insertion `m[k] = v`, modelled as function update. -/
def mapInsert (m : Str → Option Str) (k v : Str) : Str → Option Str :=
  fun x => if x = k then some v else m x

/-- `ListLockfile`'s result map (nodejs.go lines 221–229): every regex
match inserts its (name, version) pair, so a later match with the same
name overwrites an earlier one. -/
def extractPins (text : Str) : Str → Option Str :=
  (findPinMatches (splitChar '\n' text)).foldl
    (fun m nv => mapInsert m nv.1 nv.2) emptyMap

/-- Reference lookup: the value of the last pair with the given key. -/
def lookupLast (l : List (Str × Str)) (k : Str) : Option Str :=
  match l with
  | [] => none
  | nv :: t =>
    match lookupLast t k with
    | some v => some v
    | none => if nv.1 = k then some nv.2 else none

/-! ## The specfile lister (`ListSpecfile`, nodejs.go lines 198–215) -/

/-- `ListSpecfile`'s merge (nodejs.go lines 207–213): insert every
runtime-dependency entry, then every development-dependency entry, into one
map; development entries inserted later overwrite runtime entries. -/
def listSpecfile (deps devDeps : List (Str × Str)) : Str → Option Str :=
  devDeps.foldl (fun m nv => mapInsert m nv.1 nv.2)
    (deps.foldl (fun m nv => mapInsert m nv.1 nv.2) emptyMap)

/-! ## The version selector (`Info`, nodejs.go lines 141–161)

`Info` iterates over the keys of the registry's version map, parses each
with the external `hashicorp/go-version` library, skips parse failures and
prereleases, keeps the greatest, and renders the winner with `String()`. -/

/-- A parsed semantic version.  Modelled from the spec: the value built by
the external go-version library's `NewVersion` (the library is not among
the sources at hand); per the spec a label is a semantic version
`MAJOR.MINOR.PATCH`, optionally followed by `-` and a pre-release
component and by `+` and build metadata.  The three numeric segments are
kept as their digit strings. -/
structure SemVer where
  major : Str
  minor : Str
  patch : Str
  pre : Option Str
  build : Option Str
deriving DecidableEq

/-- Split at the first occurrence of `sep`, keeping what follows it
(`none` when `sep` does not occur). -/
def splitFirst (sep : Char) : List Char → List Char × Option (List Char)
  | [] => ([], none)
  | c :: rest =>
    if c = sep then ([], some rest)
    else (c :: (splitFirst sep rest).1, (splitFirst sep rest).2)

def isDigitC (c : Char) : Bool := '0' ≤ c && c ≤ '9'

/-- A valid numeric segment: non-empty digits, no leading zero. -/
def numOK (l : Str) : Bool :=
  !l.isEmpty && l.all isDigitC
    && (!(decide (l.head? = some '0')) || decide (l = ['0']))

/-- A character allowed in a pre-release or build component. -/
def identC (c : Char) : Bool := c.isAlphanum || c = '-' || c = '.'

/-- A valid optional pre-release/build component: absent, or non-empty of
identifier characters. -/
def identOK : Option Str → Bool
  | none => true
  | some p => !p.isEmpty && p.all identC

/-- Modelled from the spec: `version.NewVersion` of the external
go-version library — parse a label as a semantic version
`MAJOR.MINOR.PATCH[-pre][+build]`; labels that fail to parse yield
`none`. -/
def parseVersion (l : Str) : Option SemVer :=
  match splitChar '.' (splitFirst '-' (splitFirst '+' l).1).1 with
  | [a, b, c] =>
    if numOK a && numOK b && numOK c
        && identOK (splitFirst '-' (splitFirst '+' l).1).2
        && identOK (splitFirst '+' l).2
    then some ⟨a, b, c, (splitFirst '-' (splitFirst '+' l).1).2, (splitFirst '+' l).2⟩
    else none
  | _ => none

/-- An optional component rendered with its leading separator. -/
def optTail (sep : Char) : Option Str → Str
  | none => []
  | some p => sep :: p

/-- Modelled from the spec: `Version.String()` of the external go-version
library — render the parsed version back to its label. -/
def renderVersion (v : SemVer) : Str :=
  v.major ++ '.' :: v.minor ++ '.' :: v.patch
    ++ optTail '-' v.pre ++ optTail '+' v.build

/-- Numeric value of a digit string. -/
def digitsToNat (l : Str) : Nat := l.foldl (fun n c => 10 * n + (c.toNat - 48)) 0

/-- Modelled from the spec: `Version.GreaterThan` of the external
go-version library restricted to the non-prerelease versions `Info`
compares — standard semantic-version ordering on (major, minor, patch);
build metadata does not participate in precedence. -/
def vGT (v w : SemVer) : Bool :=
  decide (digitsToNat w.major < digitsToNat v.major)
    || (decide (digitsToNat v.major = digitsToNat w.major)
        && (decide (digitsToNat w.minor < digitsToNat v.minor)
            || (decide (digitsToNat v.minor = digitsToNat w.minor)
                && decide (digitsToNat w.patch < digitsToNat v.patch))))

/-- One step of `Info`'s selection loop (nodejs.go lines 144–157): skip
labels that fail to parse, skip prereleases, keep the greater version. -/
def selectStep (acc : Option SemVer) (l : Str) : Option SemVer :=
  match parseVersion l with
  | none => acc
  | some v =>
    if v.pre.isSome then acc
    else
      match acc with
      | none => some v
      | some w => if vGT v w then some v else acc

/-- `Info`'s version selection (nodejs.go lines 141–161): the rendered
greatest non-prerelease parseable label, or the empty string when there is
none. -/
def selectLatest (labels : List Str) : Str :=
  match labels.foldl selectStep none with
  | none => []
  | some v => renderVersion v

/-! ## Concrete example data used by the spec's examples -/

/-- The source file of the spec's end-to-end guess example. -/
def demoSourceFile : Str :=
  "import React from \"react\";\nrequire(\"./utils\")\nimport(\"lodash/debounce\")\n".toList

/-- The built-in module list of the spec's end-to-end guess example. -/
def demoBuiltins : List Str := ["fs".toList, "path".toList]

/-- The lock-file text of the spec's `extractPins` example. -/
def demoLockText : Str :=
  "\"left-pad@^1.0.0\":\n  version \"1.3.0\"\n\n\"right-pad@^1.0.0\", \"right-pad@^1.1.0\":\n  version \"1.1.0\"".toList

/-- A lock-file text whose single block names a scoped package. -/
def demoScopedLockText : Str :=
  "\"@scope/pkg@^1.0.0\":\n  version \"1.0.0\"".toList

/-- The version-label set of the spec's `selectLatest` example. -/
def demoVersionLabels : List Str :=
  ["1.0.0".toList, "2.0.0-beta".toList, "1.9.9".toList, "not-a-version".toList]

/-- The runtime-dependency group of the spec's `listSpecfile` example. -/
def demoDeps : List (Str × Str) := [("a".toList, "^1.0.0".toList)]

/-- The development-dependency group of the spec's `listSpecfile` example. -/
def demoDevDeps : List (Str × Str) :=
  [("a".toList, "^2.0.0".toList), ("b".toList, "^1.0.0".toList)]

/-! ## Supporting lemmas -/

theorem splitChar_ne_nil (sep : Char) (l : List Char) : splitChar sep l ≠ [] := by
  cases l with
  | nil => simp [splitChar]
  | cons c rest =>
    simp only [splitChar]
    split
    · simp
    · cases h : splitChar sep rest <;> simp [consHead]

theorem intercalateChar_splitChar (sep : Char) (l : List Char) :
    intercalateChar sep (splitChar sep l) = l := by
  induction l with
  | nil => simp [splitChar, intercalateChar]
  | cons c rest ih =>
    cases h : splitChar sep rest with
    | nil => exact absurd h (splitChar_ne_nil sep rest)
    | cons g gs =>
      rw [h] at ih
      by_cases hc : c = sep
      · subst hc
        simp only [splitChar, if_pos rfl, h, intercalateChar, List.nil_append]
        rw [ih]
      · simp only [splitChar, if_neg hc, h]
        cases gs with
        | nil =>
          simp only [consHead, intercalateChar] at ih ⊢
          rw [ih]
        | cons h2 t2 =>
          simp only [consHead, intercalateChar, List.cons_append] at ih ⊢
          rw [ih]

theorem splitChar_sep_notMem (sep : Char) (l : List Char) :
    ∀ g ∈ splitChar sep l, sep ∉ g := by
  induction l with
  | nil => intro g hg; simp [splitChar] at hg; simp [hg]
  | cons c rest ih =>
    intro g hg
    simp only [splitChar] at hg
    by_cases hc : c = sep
    · rw [if_pos hc] at hg
      rcases List.mem_cons.mp hg with hg | hg
      · simp [hg]
      · exact ih g hg
    · rw [if_neg hc] at hg
      cases h : splitChar sep rest with
      | nil => exact absurd h (splitChar_ne_nil sep rest)
      | cons g0 gs =>
        rw [h] at hg
        simp only [consHead] at hg
        rcases List.mem_cons.mp hg with hg | hg
        · subst hg
          have hg0 : sep ∉ g0 := ih g0 (by rw [h]; exact List.mem_cons_self g0 gs)
          intro hmem
          rcases List.mem_cons.mp hmem with h1 | h1
          · exact hc h1.symm
          · exact hg0 h1
        · exact ih g (by rw [h]; exact List.mem_cons_of_mem _ hg)

theorem splitChar_of_notMem (sep : Char) (l : List Char) (h : sep ∉ l) :
    splitChar sep l = [l] := by
  induction l with
  | nil => simp [splitChar]
  | cons c rest ih =>
    simp only [List.mem_cons, not_or] at h
    simp only [splitChar]
    rw [if_neg (fun hc => h.1 hc.symm), ih h.2]
    rfl

theorem splitChar_append_sep (sep : Char) (a b : List Char) (ha : sep ∉ a) :
    splitChar sep (a ++ sep :: b) = a :: splitChar sep b := by
  induction a with
  | nil => simp [splitChar]
  | cons c rest ih =>
    simp only [List.mem_cons, not_or] at ha
    simp only [List.cons_append, splitChar]
    rw [if_neg (fun hc => ha.1 hc.symm)]
    show consHead c (splitChar sep (rest ++ sep :: b)) = (c :: rest) :: splitChar sep b
    rw [ih ha.2]
    rfl

/-- Characters of any piece of `splitChar` are characters of the input. -/
theorem mem_of_mem_splitChar (sep : Char) (l : List Char) :
    ∀ g ∈ splitChar sep l, ∀ c ∈ g, c ∈ l := by
  induction l with
  | nil =>
    intro g hg c hc
    simp [splitChar] at hg
    subst hg
    simp at hc
  | cons d rest ih =>
    intro g hg c hc
    simp only [splitChar] at hg
    by_cases hd : d = sep
    · rw [if_pos hd] at hg
      rcases List.mem_cons.mp hg with hg | hg
      · subst hg; simp at hc
      · exact List.mem_cons_of_mem d (ih g hg c hc)
    · rw [if_neg hd] at hg
      cases h : splitChar sep rest with
      | nil => exact absurd h (splitChar_ne_nil sep rest)
      | cons g0 gs =>
        rw [h] at hg
        simp only [consHead] at hg
        rcases List.mem_cons.mp hg with hg | hg
        · subst hg
          rcases List.mem_cons.mp hc with h1 | h1
          · simp [h1]
          · exact List.mem_cons_of_mem d
              (ih g0 (by rw [h]; exact List.mem_cons_self _ _) c h1)
        · exact List.mem_cons_of_mem d
            (ih g (by rw [h]; exact List.mem_cons_of_mem _ hg) c hc)

theorem getLastD_mem {α : Type} (l : List α) (d : α) (h : l ≠ []) :
    l.getLastD d ∈ l := by
  induction l with
  | nil => exact absurd rfl h
  | cons a rest ih =>
    cases rest with
    | nil => simp [List.getLastD]
    | cons b t => exact List.mem_cons_of_mem a (ih (by simp))

theorem stripLoaders_no_bang (m : Str) : '!' ∉ stripLoaders m := by
  unfold stripLoaders
  by_cases h : '!' ∈ m
  · rw [if_pos h]
    exact splitChar_sep_notMem '!' m _
      (getLastD_mem _ _ (splitChar_ne_nil '!' m))
  · rw [if_neg h]
    exact h

theorem stripLoaders_of_no_bang (m : Str) (h : '!' ∉ m) : stripLoaders m = m := by
  unfold stripLoaders
  rw [if_neg h]

theorem splitChar_length_ge_two (sep : Char) (l : List Char) (h : sep ∈ l) :
    2 ≤ (splitChar sep l).length := by
  induction l with
  | nil => simp at h
  | cons c rest ih =>
    simp only [splitChar]
    by_cases hc : c = sep
    · rw [if_pos hc]
      have := splitChar_ne_nil sep rest
      cases hs : splitChar sep rest with
      | nil => exact absurd hs this
      | cons g gs => simp
    · rw [if_neg hc]
      rcases List.mem_cons.mp h with h1 | h1
      · exact absurd h1.symm hc
      · have h2 := ih h1
        cases hs : splitChar sep rest with
        | nil => exact absurd hs (splitChar_ne_nil sep rest)
        | cons g gs =>
          rw [hs] at h2
          simpa [consHead] using h2

theorem getLastD_of_ne_nil {α : Type} (l : List α) (d d' : α) (h : l ≠ []) :
    l.getLastD d = l.getLastD d' := by
  simp only [List.getLastD_eq_getLast?]
  cases hL : l.getLast? with
  | none => exact absurd (List.getLast?_eq_none_iff.mp hL) h
  | some x => simp

theorem getLastD_cons_of_ne_nil {α : Type} (a : α) (l : List α) (d : α) (h : l ≠ []) :
    (a :: l).getLastD d = l.getLastD d := by
  simp only [List.getLastD_eq_getLast?]
  cases l with
  | nil => exact absurd rfl h
  | cons b t => rw [List.getLast?_cons_cons]

/-- The last piece of a split at the last separator occurrence is the
suffix after that separator. -/
theorem lastPiece_after_sep (sep : Char) (pre suffix : List Char) (h : sep ∉ suffix) :
    (splitChar sep (pre ++ sep :: suffix)).getLastD [] = suffix := by
  induction pre with
  | nil =>
    simp only [List.nil_append, splitChar, if_pos rfl]
    rw [splitChar_of_notMem sep suffix h]
    rfl
  | cons c pre' ih =>
    have hmem : sep ∈ pre' ++ sep :: suffix := by simp
    have hne := splitChar_ne_nil sep (pre' ++ sep :: suffix)
    rw [List.cons_append, splitChar]
    by_cases hc : c = sep
    · rw [if_pos hc]
      rw [getLastD_cons_of_ne_nil _ _ _ hne]
      exact ih
    · rw [if_neg hc]
      cases hs : splitChar sep (pre' ++ sep :: suffix) with
      | nil => exact absurd hs hne
      | cons g gs =>
        cases gs with
        | nil =>
          have h2 := splitChar_length_ge_two sep _ hmem
          rw [hs] at h2
          simp at h2
        | cons g2 t2 =>
          rw [hs] at ih
          simp only [consHead]
          rw [getLastD_cons_of_ne_nil _ _ _ (by simp)]
          rw [getLastD_cons_of_ne_nil _ _ _ (by simp)] at ih
          exact ih

/-- The first piece of a split is a prefix of the input. -/
theorem splitChar_head_append (sep : Char) (l : List Char) :
    ∃ t, l = ((splitChar sep l).headD []) ++ t := by
  have hj := intercalateChar_splitChar sep l
  cases hs : splitChar sep l with
  | nil => exact absurd hs (splitChar_ne_nil sep l)
  | cons g gs =>
    rw [hs] at hj
    cases gs with
    | nil =>
      refine ⟨[], ?_⟩
      simp only [intercalateChar] at hj
      simp [← hj]
    | cons g2 t2 =>
      refine ⟨sep :: intercalateChar sep (g2 :: t2), ?_⟩
      simp only [intercalateChar] at hj
      simp [← hj]

theorem normPost_eq_none_iff (m : Str) : normPost m = none ↔ m.head? = some '.' := by
  unfold normPost
  by_cases h1 : m.head? = some '.'
  · simp [h1]
  · rw [if_neg h1]
    by_cases h2 : '/' ∈ m
    · rw [if_pos h2]
      by_cases h3 : m.head? = some '@' <;> simp [h3, h1]
    · simp [h2, h1]

theorem normPost_no_slash (m : Str) (h1 : m.head? ≠ some '.') (h2 : '/' ∉ m) :
    normPost m = some m := by
  unfold normPost
  rw [if_neg h1, if_neg h2]

/-! ## Claims about the specifier normalizer -/

/-- C2: loader prefixes are stripped before the relative-path test — for
every specifier containing `!`, normalization only depends on the suffix
after the last `!`; hence `loaderA!loaderB!./local` normalizes to none
(its suffix is relative) while `loaderA!pkg/sub` normalizes to `pkg`. -/
theorem C2_loader_strip :
    (∀ m : Str, '!' ∈ m →
        normalizeSpec m = normalizeSpec ((splitChar '!' m).getLastD []))
    ∧ (∀ a b loc : Str, '!' ∉ loc →
        normalizeSpec (a ++ '!' :: b ++ '!' :: '.' :: '/' :: loc) = none)
    ∧ (∀ a pkg sub : Str, '!' ∉ pkg → '!' ∉ sub → '/' ∉ pkg → pkg ≠ [] →
        pkg.head? ≠ some '.' → pkg.head? ≠ some '@' →
        normalizeSpec (a ++ '!' :: pkg ++ '/' :: sub) = some pkg) := by
  refine ⟨?_, ?_, ?_⟩
  · intro m hm
    unfold normalizeSpec
    have h1 : stripLoaders m = (splitChar '!' m).getLastD [] := by
      unfold stripLoaders
      rw [if_pos hm]
    have h2 : '!' ∉ (splitChar '!' m).getLastD [] :=
      splitChar_sep_notMem '!' m _ (getLastD_mem _ _ (splitChar_ne_nil '!' m))
    rw [h1, stripLoaders_of_no_bang _ h2]
  · intro a b loc hloc
    have hmem : '!' ∈ a ++ '!' :: b ++ '!' :: '.' :: '/' :: loc := by simp
    have hsuf : '!' ∉ '.' :: '/' :: loc := by
      intro hq
      rcases List.mem_cons.mp hq with hq | hq
      · exact absurd hq (by decide)
      rcases List.mem_cons.mp hq with hq | hq
      · exact absurd hq (by decide)
      · exact hloc hq
    have heq : a ++ '!' :: b ++ '!' :: '.' :: '/' :: loc
        = (a ++ '!' :: b) ++ '!' :: ('.' :: '/' :: loc) := by
      simp
    unfold normalizeSpec stripLoaders
    rw [if_pos hmem, heq, lastPiece_after_sep '!' _ _ hsuf]
    simp [normPost]
  · intro a pkg sub h1 h2 h3 h4 h5 h6
    have hsuf : '!' ∉ pkg ++ '/' :: sub := by
      intro hq
      rcases List.mem_append.mp hq with hq | hq
      · exact h1 hq
      rcases List.mem_cons.mp hq with hq | hq
      · exact absurd hq (by decide)
      · exact h2 hq
    have hmem : '!' ∈ a ++ '!' :: pkg ++ '/' :: sub := by simp
    have heq : a ++ '!' :: pkg ++ '/' :: sub = a ++ '!' :: (pkg ++ '/' :: sub) := by
      simp
    unfold normalizeSpec stripLoaders
    rw [if_pos hmem, heq, lastPiece_after_sep '!' a _ hsuf]
    obtain ⟨p0, pt, hp⟩ : ∃ p0 pt, pkg = p0 :: pt := by
      cases pkg with
      | nil => exact absurd rfl h4
      | cons p0 pt => exact ⟨p0, pt, rfl⟩
    have hslash : '/' ∈ pkg ++ '/' :: sub := by simp
    have hh : (pkg ++ '/' :: sub).head? = pkg.head? := by rw [hp]; rfl
    unfold normPost
    rw [hh, if_neg h5, if_pos hslash, if_neg h6]
    rw [splitChar_append_sep '/' pkg sub h3]
    rfl

/-- Witness for C2, at the spec's own examples. -/
theorem C2_loader_strip_witness :
    normalizeSpec "loaderA!loaderB!./local".toList = none
    ∧ normalizeSpec "loaderA!pkg/sub".toList = some "pkg".toList
    ∧ normalizeSpec "a!b".toList
        = normalizeSpec ((splitChar '!' "a!b".toList).getLastD []) := by
  refine ⟨?_, ?_, C2_loader_strip.1 "a!b".toList (by decide)⟩
  · have h := C2_loader_strip.2.1 "loaderA".toList "loaderB".toList "local".toList
      (by decide)
    have he : "loaderA!loaderB!./local".toList
        = "loaderA".toList ++ '!' :: "loaderB".toList ++ '!' :: '.' :: '/' :: "local".toList := by
      decide
    rw [he]
    exact h
  · have h := C2_loader_strip.2.2 "loaderA".toList "pkg".toList "sub".toList
      (by decide) (by decide) (by decide) (by decide) (by decide) (by decide)
    have he : "loaderA!pkg/sub".toList
        = "loaderA".toList ++ '!' :: "pkg".toList ++ '/' :: "sub".toList := by
      decide
    rw [he]
    exact h

theorem mem_insertSet (acc : List Str) (p n : Str) :
    n ∈ insertSet acc p ↔ n ∈ acc ∨ n = p := by
  unfold insertSet
  by_cases h : p ∈ acc
  · rw [if_pos h]
    constructor
    · exact Or.inl
    · rintro (h1 | h1)
      · exact h1
      · exact h1 ▸ h
  · rw [if_neg h]
    simp

theorem mem_guessFold (l : List Str) :
    ∀ (acc : List Str) (n : Str),
      n ∈ l.foldl
          (fun acc m =>
            match normalizeSpec m with
            | none => acc
            | some p => insertSet acc p) acc →
      n ∈ acc ∨ ∃ raw ∈ l, normalizeSpec raw = some n := by
  induction l with
  | nil =>
    intro acc n h
    exact Or.inl h
  | cons m t ih =>
    intro acc n h
    simp only [List.foldl_cons] at h
    rcases ih _ n h with h1 | h1
    · cases hn : normalizeSpec m with
      | none =>
        simp only [hn] at h1
        exact Or.inl h1
      | some p =>
        simp only [hn] at h1
        rcases (mem_insertSet acc p n).mp h1 with h2 | h2
        · exact Or.inl h2
        · exact Or.inr ⟨m, by simp, by rw [hn, h2]⟩
    · obtain ⟨raw, hr1, hr2⟩ := h1
      exact Or.inr ⟨raw, by simp [hr1], hr2⟩

theorem mem_filterFold (bs : List Str) :
    ∀ (acc : List Str) (n : Str),
      n ∈ bs.foldl (fun acc b => acc.filter (fun x => decide (x ≠ b))) acc
        ↔ n ∈ acc ∧ ∀ b ∈ bs, n ≠ b := by
  induction bs with
  | nil =>
    intro acc n
    simp
  | cons b t ih =>
    intro acc n
    simp only [List.foldl_cons]
    rw [ih]
    simp only [List.mem_filter, decide_eq_true_eq, List.mem_cons]
    constructor
    · rintro ⟨⟨h1, h2⟩, h3⟩
      refine ⟨h1, fun b' hb => ?_⟩
      rcases hb with he | ht
      · rw [he]; exact h2
      · exact h3 b' ht
    · rintro ⟨h1, h2⟩
      exact ⟨⟨h1, h2 b (Or.inl rfl)⟩, fun b' hb => h2 b' (Or.inr hb)⟩

/-- C3: normalization returns none exactly when the remainder after loader
stripping begins with `.`; and every name in the guess result is the
normalization of some extracted raw specifier, so relative specifiers
never contribute. -/
theorem C3_relative_reject :
    (∀ m : Str, normalizeSpec m = none ↔ (stripLoaders m).head? = some '.')
    ∧ (∀ files builtins n, n ∈ guessResult files builtins →
        ∃ raw ∈ files.flatMap extractRaw, normalizeSpec raw = some n) := by
  constructor
  · intro m
    exact normPost_eq_none_iff (stripLoaders m)
  · intro files builtins n h
    have h1 : n ∈ guessPkgs files :=
      ((mem_filterFold builtins (guessPkgs files) n).mp h).1
    rcases mem_guessFold (files.flatMap extractRaw) [] n h1 with h2 | h2
    · simp at h2
    · exact h2

/-- Witness for C3: the iff at a relative specifier, and the provenance of
`react` in the end-to-end example. -/
theorem C3_relative_reject_witness :
    (normalizeSpec "./utils".toList = none ↔
      (stripLoaders "./utils".toList).head? = some '.')
    ∧ ∃ raw ∈ [demoSourceFile].flatMap extractRaw,
        normalizeSpec raw = some "react".toList :=
  ⟨C3_relative_reject.1 "./utils".toList,
   C3_relative_reject.2 [demoSourceFile] demoBuiltins "react".toList (by decide)⟩

/-- C6: the guess result is the candidate set minus exactly the built-in
names — a name is in the result iff it is a candidate and differs from
every built-in, so removal is by exact string equality only and a
candidate merely having a built-in as a prefix or path segment is kept. -/
theorem C6_builtin_filter (files builtins : List Str) (n : Str) :
    n ∈ guessResult files builtins ↔ n ∈ guessPkgs files ∧ ∀ b ∈ builtins, n ≠ b :=
  mem_filterFold builtins (guessPkgs files) n

/-- Witness for C6: in the end-to-end example, `react` is kept (it equals
no built-in) even though built-ins `fs`/`path` are removed. -/
theorem C6_builtin_filter_witness :
    "react".toList ∈ guessResult [demoSourceFile] demoBuiltins :=
  (C6_builtin_filter [demoSourceFile] demoBuiltins "react".toList).mpr
    ⟨by decide, by decide⟩

/-- C7: the end-to-end guess example — over a source file containing
`import React from "react";`, `require("./utils")` and
`import("lodash/debounce")`, with built-ins `fs` and `path`, guess returns
exactly {react, lodash}. -/
theorem C7_guess_example :
    guessResult [demoSourceFile] demoBuiltins
      = ["react".toList, "lodash".toList] := by
  decide

/-- C4: after loader stripping, a non-relative specifier containing `/`
normalizes to its first two `/`-delimited segments when it begins with `@`,
and to its first segment otherwise; a specifier with no `/` normalizes to
itself. -/
theorem C4_path_collapse :
    (∀ m scope name tail : Str,
        stripLoaders m = ('@' :: scope) ++ '/' :: (name ++ tail) →
        '/' ∉ scope → '/' ∉ name → (tail = [] ∨ tail.head? = some '/') →
        normalizeSpec m = some (('@' :: scope) ++ '/' :: name))
    ∧ (∀ m name rest : Str, stripLoaders m = name ++ '/' :: rest →
        '/' ∉ name → name.head? ≠ some '.' → name.head? ≠ some '@' →
        normalizeSpec m = some name)
    ∧ (∀ m : Str, (stripLoaders m).head? ≠ some '.' → '/' ∉ stripLoaders m →
        normalizeSpec m = some (stripLoaders m)) := by
  refine ⟨?_, ?_, ?_⟩
  · intro m scope name tail hstrip hs hn htail
    unfold normalizeSpec
    rw [hstrip]
    have hns : '/' ∉ '@' :: scope := by
      intro hq
      rcases List.mem_cons.mp hq with hq | hq
      · exact absurd hq (by decide)
      · exact hs hq
    have hhead : (('@' :: scope) ++ '/' :: (name ++ tail)).head? = some '@' := rfl
    have hslash : '/' ∈ ('@' :: scope) ++ '/' :: (name ++ tail) := by simp
    unfold normPost
    rw [hhead, if_neg (by decide : ¬(some '@' = some '.')), if_pos hslash,
      if_pos rfl, splitChar_append_sep '/' _ _ hns]
    rcases htail with ht | ht
    · subst ht
      rw [List.append_nil, splitChar_of_notMem '/' name hn]
      rfl
    · cases tail with
      | nil => simp at ht
      | cons t0 tt =>
        have ht0 : t0 = '/' := by simpa using ht
        subst ht0
        rw [splitChar_append_sep '/' name tt hn]
        rfl
  · intro m name rest hstrip hn h5 h6
    unfold normalizeSpec
    rw [hstrip]
    cases name with
    | nil =>
      simp only [List.nil_append]
      unfold normPost
      have hx : ('/' :: rest).head? = some '/' := rfl
      rw [hx, if_neg (by decide : ¬(some '/' = some '.')),
        if_pos (by simp : '/' ∈ '/' :: rest),
        if_neg (by decide : ¬(some '/' = some '@'))]
      rw [splitChar, if_pos rfl]
      rfl
    | cons n0 nt =>
      have hhead : ((n0 :: nt) ++ '/' :: rest).head? = some n0 := rfl
      have h5' : ¬(((n0 :: nt) ++ '/' :: rest).head? = some '.') := by
        rw [hhead]; exact h5
      have h6' : ¬(((n0 :: nt) ++ '/' :: rest).head? = some '@') := by
        rw [hhead]; exact h6
      unfold normPost
      rw [if_neg h5', if_pos (by simp : '/' ∈ (n0 :: nt) ++ '/' :: rest), if_neg h6',
        splitChar_append_sep '/' (n0 :: nt) rest hn]
      rfl
  · intro m h1 h2
    unfold normalizeSpec
    exact normPost_no_slash _ h1 h2

/-- Witness for C4, at the spec's own examples. -/
theorem C4_path_collapse_witness :
    normalizeSpec "@scope/name/extra/path".toList = some "@scope/name".toList
    ∧ normalizeSpec "name/extra/path".toList = some "name".toList
    ∧ normalizeSpec "react".toList = some "react".toList := by
  refine ⟨?_, ?_, ?_⟩
  · have h := C4_path_collapse.1 "@scope/name/extra/path".toList "scope".toList
      "name".toList "/extra/path".toList (by decide) (by decide) (by decide)
      (Or.inr (by decide))
    rw [h]
    decide
  · have h := C4_path_collapse.2.1 "name/extra/path".toList "name".toList
      "extra/path".toList (by decide) (by decide) (by decide) (by decide)
    rw [h]
  · exact C4_path_collapse.2.2 "react".toList (by decide) (by decide)

/-- C5: normalization is idempotent — whenever a raw specifier normalizes
to a package name `p`, normalizing `p` again returns `p` unchanged. -/
theorem C5_idempotent (m p : Str) (h : normalizeSpec m = some p) :
    normalizeSpec p = some p := by
  have hbang : '!' ∉ stripLoaders m := stripLoaders_no_bang m
  unfold normalizeSpec normPost at h
  by_cases h1 : (stripLoaders m).head? = some '.'
  · rw [if_pos h1] at h
    exact absurd h (by simp)
  · rw [if_neg h1] at h
    by_cases h2 : '/' ∈ stripLoaders m
    · rw [if_pos h2] at h
      by_cases h3 : (stripLoaders m).head? = some '@'
      · rw [if_pos h3] at h
        obtain ⟨r2, hr2⟩ : ∃ r2, stripLoaders m = '@' :: r2 := by
          cases hr : stripLoaders m with
          | nil => rw [hr] at h3; simp at h3
          | cons c t =>
            rw [hr] at h3
            simp only [List.head?_cons, Option.some.injEq] at h3
            exact ⟨t, by rw [h3]⟩
        rw [hr2] at h h2 hbang
        have hslash2 : '/' ∈ r2 := by
          rcases List.mem_cons.mp h2 with hq | hq
          · exact absurd hq (by decide)
          · exact hq
        cases hs : splitChar '/' r2 with
        | nil => exact absurd hs (splitChar_ne_nil '/' r2)
        | cons g gs =>
          cases gs with
          | nil =>
            have hlen := splitChar_length_ge_two '/' r2 hslash2
            rw [hs] at hlen
            simp at hlen
          | cons s2 t2 =>
            have hsp : splitChar '/' ('@' :: r2) = ('@' :: g) :: s2 :: t2 := by
              rw [splitChar, if_neg (by decide : ¬('@' = '/')), hs]
              rfl
            rw [hsp] at h
            simp only [List.take, intercalateChar, Option.some.injEq] at h
            have hg : '/' ∉ g :=
              splitChar_sep_notMem '/' r2 g (by rw [hs]; exact List.mem_cons_self _ _)
            have hs2 : '/' ∉ s2 :=
              splitChar_sep_notMem '/' r2 s2
                (by rw [hs]; exact List.mem_cons_of_mem _ (List.mem_cons_self _ _))
            have hbangp : '!' ∉ ('@' :: g) ++ '/' :: s2 := by
              intro hq
              rcases List.mem_append.mp hq with hq | hq
              · rcases List.mem_cons.mp hq with hq | hq
                · exact absurd hq (by decide)
                · exact hbang (List.mem_cons_of_mem _
                    (mem_of_mem_splitChar '/' r2 g
                      (by rw [hs]; exact List.mem_cons_self _ _) '!' hq))
              · rcases List.mem_cons.mp hq with hq | hq
                · exact absurd hq (by decide)
                · exact hbang (List.mem_cons_of_mem _
                    (mem_of_mem_splitChar '/' r2 s2
                      (by rw [hs]; exact List.mem_cons_of_mem _ (List.mem_cons_self _ _))
                      '!' hq))
            subst h
            unfold normalizeSpec
            rw [stripLoaders_of_no_bang _ hbangp]
            unfold normPost
            have hh : (('@' :: g) ++ '/' :: s2).head? = some '@' := rfl
            rw [hh, if_neg (by decide : ¬(some '@' = some '.')),
              if_pos (by simp : '/' ∈ ('@' :: g) ++ '/' :: s2), if_pos rfl,
              splitChar_append_sep '/' ('@' :: g) s2
                (by
                  intro hq
                  rcases List.mem_cons.mp hq with hq | hq
                  · exact absurd hq (by decide)
                  · exact hg hq),
              splitChar_of_notMem '/' s2 hs2]
            rfl
      · rw [if_neg h3] at h
        cases hs : splitChar '/' (stripLoaders m) with
        | nil => exact absurd hs (splitChar_ne_nil '/' (stripLoaders m))
        | cons g gs =>
          rw [hs] at h
          simp only [List.headD_cons, Option.some.injEq] at h
          subst h
          have hslashg : '/' ∉ g :=
            splitChar_sep_notMem '/' (stripLoaders m) g
              (by rw [hs]; exact List.mem_cons_self _ _)
          have hbangg : '!' ∉ g := fun hq =>
            hbang (mem_of_mem_splitChar '/' (stripLoaders m) g
              (by rw [hs]; exact List.mem_cons_self _ _) '!' hq)
          obtain ⟨t, ht⟩ := splitChar_head_append '/' (stripLoaders m)
          rw [hs] at ht
          simp only [List.headD_cons] at ht
          cases g with
          | nil => decide
          | cons g0 gt =>
            have hne : g0 ≠ '.' := by
              intro hq
              apply h1
              rw [ht, hq]
              rfl
            unfold normalizeSpec
            rw [stripLoaders_of_no_bang _ hbangg]
            refine normPost_no_slash _ ?_ hslashg
            simp only [List.head?_cons, ne_eq, Option.some.injEq]
            exact hne
    · rw [if_neg h2] at h
      have hp : stripLoaders m = p := by simpa using h
      subst hp
      unfold normalizeSpec
      rw [stripLoaders_of_no_bang _ hbang]
      exact normPost_no_slash _ h1 h2

/-- Witness for C5: idempotence applied to the normalization of
`lodash/debounce`. -/
theorem C5_idempotent_witness :
    normalizeSpec "lodash".toList = some "lodash".toList :=
  C5_idempotent "lodash/debounce".toList "lodash".toList (by decide)

/-! ## Claims about the lockfile extractor and the specfile lister -/

theorem foldl_mapInsert_eq_lookupLast (l : List (Str × Str)) :
    ∀ (m : Str → Option Str) (k : Str),
      (l.foldl (fun m nv => mapInsert m nv.1 nv.2) m) k
        = match lookupLast l k with
          | some v => some v
          | none => m k := by
  induction l with
  | nil =>
    intro m k
    rfl
  | cons nv t ih =>
    intro m k
    simp only [List.foldl_cons]
    rw [ih]
    cases hL : lookupLast t k with
    | some v => simp [lookupLast, hL]
    | none =>
      simp only [lookupLast, hL, mapInsert]
      by_cases hk : k = nv.1
      · simp [hk]
      · simp [hk, Ne.symm hk]

theorem extractPins_eq_lookupLast (text : Str) (k : Str) :
    extractPins text k = lookupLast (findPinMatches (splitChar '\n' text)) k := by
  unfold extractPins
  rw [foldl_mapInsert_eq_lookupLast]
  cases lookupLast (findPinMatches (splitChar '\n' text)) k <;> rfl

theorem lookupLast_some_mem (l : List (Str × Str)) (k v : Str)
    (h : lookupLast l k = some v) : ∃ nv ∈ l, nv.1 = k ∧ nv.2 = v := by
  induction l with
  | nil => simp [lookupLast] at h
  | cons nv t ih =>
    rw [lookupLast] at h
    cases hL : lookupLast t k with
    | some w =>
      simp only [hL] at h
      obtain ⟨nv', h1, h2, h3⟩ := ih (by rw [hL]; exact h)
      exact ⟨nv', List.mem_cons_of_mem _ h1, h2, h3⟩
    | none =>
      simp only [hL] at h
      by_cases hk : nv.1 = k
      · rw [if_pos hk] at h
        exact ⟨nv, List.mem_cons_self _ _, hk, by injection h⟩
      · rw [if_neg hk] at h
        exact absurd h (by simp)

theorem take_takeWhile (p : Char → Bool) :
    ∀ (s : List Char) (k : Nat), k ≤ (s.takeWhile p).length →
      s.take k = (s.takeWhile p).take k := by
  intro s
  induction s with
  | nil =>
    intro k h
    simp
  | cons c rest ih =>
    intro k h
    by_cases hp : p c
    · rw [List.takeWhile_cons_of_pos hp] at h ⊢
      cases k with
      | zero => simp
      | succ j =>
        simp only [List.take_succ_cons]
        rw [ih j (by simpa using h)]
    · rw [List.takeWhile_cons_of_neg hp] at h
      simp at h
      subst h
      simp

theorem tryG1_class (s g : Str) (h : tryG1 s = some g) : ∀ c ∈ g, isClassPin c := by
  unfold tryG1 at h
  by_cases hk : 1 ≤ min (s.takeWhile isClassPin).length (s.length - 1)
  · rw [if_pos hk] at h
    injection h with h
    subst h
    intro c hc
    have hle : min (s.takeWhile isClassPin).length (s.length - 1)
        ≤ (s.takeWhile isClassPin).length := Nat.min_le_left _ _
    rw [take_takeWhile isClassPin s _ hle] at hc
    exact List.mem_takeWhile_imp (List.mem_of_mem_take hc)
  · rw [if_neg hk] at h
    exact absurd h (by simp)

theorem matchHeader_class (M name : Str) (h : matchHeader M = some name) :
    ∀ c ∈ name, isClassPin c := by
  unfold matchHeader at h
  by_cases h1 : M.head? = some '"'
  · rw [if_pos h1] at h
    cases ht : tryG1 M.tail with
    | some g =>
      simp only [ht] at h
      injection h with h
      subst h
      exact tryG1_class _ _ ht
    | none =>
      simp only [ht] at h
      exact tryG1_class _ _ h
  · rw [if_neg h1] at h
    exact tryG1_class _ _ h

theorem matchBlock_name_class (l1 l2 : Str) (nv : Str × Str)
    (h : matchBlock l1 l2 = some nv) : ∀ c ∈ nv.1, isClassPin c := by
  unfold matchBlock at h
  by_cases h1 : l1.getLast? = some ':'
  · rw [if_pos h1] at h
    cases hh : matchHeader l1.dropLast with
    | none =>
      simp only [hh] at h
      exact Option.noConfusion h
    | some name =>
      simp only [hh] at h
      cases hv : matchVersionLine l2 with
      | none =>
        simp only [hv] at h
        exact Option.noConfusion h
      | some ver =>
        simp only [hv] at h
        injection h with h
        subst h
        exact matchHeader_class _ _ hh
  · rw [if_neg h1] at h
    exact absurd h (by simp)

theorem findPinMatches_names (lines : List Str) :
    ∀ nv ∈ findPinMatches lines, ∀ c ∈ nv.1, isClassPin c := by
  induction lines using findPinMatches.induct with
  | case1 => simp [findPinMatches]
  | case2 head => simp [findPinMatches]
  | case3 l1 l2 rest r hr ih =>
    intro nv hnv
    rw [findPinMatches] at hnv
    simp only [hr] at hnv
    rcases List.mem_cons.mp hnv with h1 | h1
    · subst h1
      exact matchBlock_name_class l1 l2 nv hr
    · exact ih nv h1
  | case4 l1 l2 rest hr ih =>
    intro nv hnv
    rw [findPinMatches] at hnv
    simp only [hr] at hnv
    exact ih nv hnv

/-- C8: lockfile pin extraction — each matched block contributes one
(name, version) pair, later matches of the same name overwrite earlier
ones (the result is the last-match lookup over the matched blocks), and on
the spec's two-block example the result is exactly
{left-pad ↦ 1.3.0, right-pad ↦ 1.1.0}. -/
theorem C8_lockfile_pins :
    (∀ text k, extractPins text k
        = lookupLast (findPinMatches (splitChar '\n' text)) k)
    ∧ extractPins demoLockText "left-pad".toList = some "1.3.0".toList
    ∧ extractPins demoLockText "right-pad".toList = some "1.1.0".toList
    ∧ ∀ k, k ≠ "left-pad".toList → k ≠ "right-pad".toList →
        extractPins demoLockText k = none := by
  refine ⟨extractPins_eq_lookupLast, by decide, by decide, ?_⟩
  intro k h1 h2
  rw [extractPins_eq_lookupLast]
  have hm : findPinMatches (splitChar '\n' demoLockText)
      = [("left-pad".toList, "1.3.0".toList),
         ("right-pad".toList, "1.1.0".toList)] := by
    decide
  rw [hm]
  simp only [lookupLast]
  rw [if_neg (fun hq => h2 hq.symm), if_neg (fun hq => h1 hq.symm)]

/-- Witness for C8: a name matched by no block is absent from the result. -/
theorem C8_lockfile_pins_witness :
    extractPins demoLockText "x".toList = none :=
  C8_lockfile_pins.2.2.2 "x".toList (by decide) (by decide)

/-- C10: every package name extracted from a lock file contains neither `@`
nor a space (the capture class is `[^@ \n]+`); in particular a scoped
header `"@scope/pkg@^1.0.0":` yields the single character `"` as the
extracted name, not `@scope/pkg`. -/
theorem C10_lockfile_name_chars :
    (∀ text k v, extractPins text k = some v → '@' ∉ k ∧ ' ' ∉ k)
    ∧ extractPins demoScopedLockText ['"'] = some "1.0.0".toList
    ∧ extractPins demoScopedLockText "@scope/pkg".toList = none := by
  refine ⟨?_, by decide, by decide⟩
  intro text k v h
  rw [extractPins_eq_lookupLast] at h
  obtain ⟨nv, hmem, hk, _⟩ := lookupLast_some_mem _ k v h
  subst hk
  have hcls := findPinMatches_names _ nv hmem
  constructor
  · intro hq
    have hc := hcls '@' hq
    simp [isClassPin] at hc
  · intro hq
    have hc := hcls ' ' hq
    simp [isClassPin] at hc

/-- Witness for C10: the universal part applied to the scoped-header
example, whose extracted name is the quote character. -/
theorem C10_lockfile_name_chars_witness :
    '@' ∉ (['"'] : Str) ∧ ' ' ∉ (['"'] : Str) :=
  C10_lockfile_name_chars.1 demoScopedLockText ['"'] "1.0.0".toList (by decide)

/-- C9: `listSpecfile` merges the two dependency groups with the
development group winning on collision (the merged lookup consults the
development group first), and on the spec's example the result is exactly
{a ↦ ^2.0.0, b ↦ ^1.0.0}. -/
theorem C9_specfile_merge :
    (∀ deps devDeps k, listSpecfile deps devDeps k
        = match lookupLast devDeps k with
          | some v => some v
          | none => lookupLast deps k)
    ∧ listSpecfile demoDeps demoDevDeps "a".toList = some "^2.0.0".toList
    ∧ listSpecfile demoDeps demoDevDeps "b".toList = some "^1.0.0".toList
    ∧ ∀ k, k ≠ "a".toList → k ≠ "b".toList →
        listSpecfile demoDeps demoDevDeps k = none := by
  have hgen : ∀ deps devDeps k, listSpecfile deps devDeps k
      = match lookupLast devDeps k with
        | some v => some v
        | none => lookupLast deps k := by
    intro deps devDeps k
    unfold listSpecfile
    rw [foldl_mapInsert_eq_lookupLast, foldl_mapInsert_eq_lookupLast]
    cases lookupLast devDeps k with
    | some v => rfl
    | none =>
      cases lookupLast deps k with
      | some v => rfl
      | none => rfl
  refine ⟨hgen, by decide, by decide, ?_⟩
  intro k h1 h2
  rw [hgen]
  simp only [demoDeps, demoDevDeps, lookupLast]
  rw [if_neg (fun hq => h2 hq.symm), if_neg (fun hq => h1 hq.symm),
    if_neg (fun hq => h1 hq.symm)]

/-- Witness for C9: a name in neither group is absent from the merge. -/
theorem C9_specfile_merge_witness :
    listSpecfile demoDeps demoDevDeps "x".toList = none :=
  C9_specfile_merge.2.2.2 "x".toList (by decide) (by decide)

/-! ## Claims about the version selector -/

theorem vGT_spec (v w : SemVer) : vGT v w = true ↔
    (digitsToNat w.major < digitsToNat v.major
     ∨ (digitsToNat v.major = digitsToNat w.major
        ∧ (digitsToNat w.minor < digitsToNat v.minor
           ∨ (digitsToNat v.minor = digitsToNat w.minor
              ∧ digitsToNat w.patch < digitsToNat v.patch)))) := by
  unfold vGT
  simp

theorem vGT_eq_false_iff (v w : SemVer) : vGT v w = false ↔
    (digitsToNat v.major < digitsToNat w.major
     ∨ (digitsToNat v.major = digitsToNat w.major
        ∧ (digitsToNat v.minor < digitsToNat w.minor
           ∨ (digitsToNat v.minor = digitsToNat w.minor
              ∧ digitsToNat v.patch ≤ digitsToNat w.patch)))) := by
  rw [Bool.eq_false_iff]
  constructor
  · intro h
    by_contra hc
    apply h
    rw [vGT_spec]
    omega
  · intro h hx
    rw [vGT_spec] at hx
    omega

theorem vGT_irrefl (v : SemVer) : vGT v v = false := by
  rw [vGT_eq_false_iff]
  omega

theorem vGT_trans_left (a b c : SemVer) (h1 : vGT b a = true) (h2 : vGT b c = false) :
    vGT a c = false := by
  rw [vGT_spec] at h1
  rw [vGT_eq_false_iff] at h2 ⊢
  omega

theorem vGT_trans_le (a b c : SemVer) (h1 : vGT a b = false) (h2 : vGT b c = false) :
    vGT a c = false := by
  rw [vGT_eq_false_iff] at h1 h2 ⊢
  omega

theorem splitFirst_recompose (sep : Char) (l : List Char) :
    l = (splitFirst sep l).1 ++ optTail sep (splitFirst sep l).2 := by
  induction l with
  | nil => rfl
  | cons c rest ih =>
    simp only [splitFirst]
    by_cases hc : c = sep
    · rw [if_pos hc]
      simp [hc, optTail]
    · rw [if_neg hc]
      rw [List.cons_append]
      exact congrArg (List.cons c) ih

theorem renderVersion_parseVersion (l : Str) (v : SemVer)
    (h : parseVersion l = some v) : renderVersion v = l := by
  unfold parseVersion at h
  split at h
  case h_2 => exact absurd h (by simp)
  case h_1 a b c hsp =>
    split at h
    case isFalse => exact absurd h (by simp)
    case isTrue hok =>
      injection h with h
      subst h
      have hcore : (splitFirst '-' (splitFirst '+' l).1).1
          = a ++ '.' :: (b ++ '.' :: c) := by
        have hj := intercalateChar_splitChar '.' (splitFirst '-' (splitFirst '+' l).1).1
        rw [hsp] at hj
        simpa [intercalateChar] using hj.symm
      simp only [renderVersion]
      conv_rhs => rw [splitFirst_recompose '+' l,
        splitFirst_recompose '-' (splitFirst '+' l).1, hcore]
      simp [List.append_assoc]

theorem selectFold_spec (labels : List Str) :
    ∀ acc : Option SemVer,
      (labels.foldl selectStep acc = none ↔
        acc = none ∧ ∀ l ∈ labels, ∀ w, parseVersion l = some w → w.pre ≠ none)
      ∧ (∀ v, labels.foldl selectStep acc = some v →
          (acc = some v ∨ ∃ l ∈ labels, parseVersion l = some v ∧ v.pre = none)
          ∧ (∀ l ∈ labels, ∀ w, parseVersion l = some w → w.pre = none →
              vGT w v = false)
          ∧ (∀ u, acc = some u → vGT u v = false)) := by
  induction labels with
  | nil =>
    intro acc
    constructor
    · simp
    · intro v hv
      simp only [List.foldl_nil] at hv
      refine ⟨Or.inl hv, by simp, ?_⟩
      intro u hu
      rw [hu] at hv
      injection hv with hv
      rw [hv]
      exact vGT_irrefl v
  | cons l ls ih =>
    intro acc
    cases hp : parseVersion l with
    | none =>
      have hstep : selectStep acc l = acc := by
        simp [selectStep, hp]
      have hPS : ∀ w, parseVersion l = some w → w.pre ≠ none := by
        intro w hw'
        rw [hp] at hw'
        exact Option.noConfusion hw'
      constructor
      · rw [List.foldl_cons, hstep, (ih acc).1]
        constructor
        · rintro ⟨h1, h2⟩
          refine ⟨h1, fun l' hl' => ?_⟩
          rcases List.mem_cons.mp hl' with he | hm
          · subst he
            exact hPS
          · exact h2 l' hm
        · rintro ⟨h1, h2⟩
          exact ⟨h1, fun l' hl' => h2 l' (List.mem_cons_of_mem _ hl')⟩
      · intro v hv
        rw [List.foldl_cons, hstep] at hv
        obtain ⟨hprov, hmax, haccle⟩ := (ih acc).2 v hv
        refine ⟨?_, ?_, haccle⟩
        · rcases hprov with h | ⟨l', hl', hp', hpre'⟩
          · exact Or.inl h
          · exact Or.inr ⟨l', List.mem_cons_of_mem _ hl', hp', hpre'⟩
        · intro l' hl' w hw' hwpre
          rcases List.mem_cons.mp hl' with he | hm
          · subst he
            exact absurd hwpre (hPS w hw')
          · exact hmax l' hm w hw' hwpre
    | some w0 =>
      cases hw : w0.pre with
      | some p =>
        have hstep : selectStep acc l = acc := by
          simp [selectStep, hp, hw]
        have hPS : ∀ w, parseVersion l = some w → w.pre ≠ none := by
          intro w hw'
          rw [hp] at hw'
          injection hw' with he
          rw [← he, hw]
          simp
        constructor
        · rw [List.foldl_cons, hstep, (ih acc).1]
          constructor
          · rintro ⟨h1, h2⟩
            refine ⟨h1, fun l' hl' => ?_⟩
            rcases List.mem_cons.mp hl' with he | hm
            · subst he
              exact hPS
            · exact h2 l' hm
          · rintro ⟨h1, h2⟩
            exact ⟨h1, fun l' hl' => h2 l' (List.mem_cons_of_mem _ hl')⟩
        · intro v hv
          rw [List.foldl_cons, hstep] at hv
          obtain ⟨hprov, hmax, haccle⟩ := (ih acc).2 v hv
          refine ⟨?_, ?_, haccle⟩
          · rcases hprov with h | ⟨l', hl', hp', hpre'⟩
            · exact Or.inl h
            · exact Or.inr ⟨l', List.mem_cons_of_mem _ hl', hp', hpre'⟩
          · intro l' hl' w hw' hwpre
            rcases List.mem_cons.mp hl' with he | hm
            · subst he
              exact absurd hwpre (hPS w hw')
            · exact hmax l' hm w hw' hwpre
      | none =>
        cases acc with
        | none =>
          have hstep : selectStep (none : Option SemVer) l = some w0 := by
            simp [selectStep, hp, hw]
          constructor
          · rw [List.foldl_cons, hstep]
            constructor
            · intro hnone
              have := ((ih (some w0)).1.mp hnone).1
              exact absurd this (by simp)
            · rintro ⟨_, h2⟩
              exact absurd hw (h2 l (List.mem_cons_self _ _) w0 hp)
          · intro v hv
            rw [List.foldl_cons, hstep] at hv
            obtain ⟨hprov, hmax, haccle⟩ := (ih (some w0)).2 v hv
            refine ⟨?_, ?_, fun u hu => Option.noConfusion hu⟩
            · rcases hprov with h | ⟨l', hl', hp', hpre'⟩
              · injection h with h
                exact Or.inr ⟨l, List.mem_cons_self _ _, by rw [hp, h], by rw [← h, hw]⟩
              · exact Or.inr ⟨l', List.mem_cons_of_mem _ hl', hp', hpre'⟩
            · intro l' hl' w hw' hwpre
              rcases List.mem_cons.mp hl' with he | hm
              · subst he
                rw [hp] at hw'
                injection hw' with he2
                rw [← he2]
                exact haccle w0 rfl
              · exact hmax l' hm w hw' hwpre
        | some u0 =>
          by_cases hgt : vGT w0 u0 = true
          · have hstep : selectStep (some u0) l = some w0 := by
              simp [selectStep, hp, hw, hgt]
            constructor
            · rw [List.foldl_cons, hstep]
              constructor
              · intro hnone
                have := ((ih (some w0)).1.mp hnone).1
                exact absurd this (by simp)
              · rintro ⟨hacc, _⟩
                exact absurd hacc (by simp)
            · intro v hv
              rw [List.foldl_cons, hstep] at hv
              obtain ⟨hprov, hmax, haccle⟩ := (ih (some w0)).2 v hv
              have hw0v : vGT w0 v = false := haccle w0 rfl
              refine ⟨?_, ?_, ?_⟩
              · rcases hprov with h | ⟨l', hl', hp', hpre'⟩
                · injection h with h
                  exact Or.inr ⟨l, List.mem_cons_self _ _, by rw [hp, h], by rw [← h, hw]⟩
                · exact Or.inr ⟨l', List.mem_cons_of_mem _ hl', hp', hpre'⟩
              · intro l' hl' w hw' hwpre
                rcases List.mem_cons.mp hl' with he | hm
                · subst he
                  rw [hp] at hw'
                  injection hw' with he2
                  rw [← he2]
                  exact hw0v
                · exact hmax l' hm w hw' hwpre
              · intro u hu
                injection hu with hu
                rw [← hu]
                exact vGT_trans_left u0 w0 v hgt hw0v
          · have hgt' : vGT w0 u0 = false := by
              cases hq : vGT w0 u0 with
              | false => rfl
              | true => exact absurd hq hgt
            have hstep : selectStep (some u0) l = some u0 := by
              simp [selectStep, hp, hw, hgt']
            constructor
            · rw [List.foldl_cons, hstep]
              constructor
              · intro hnone
                have := ((ih (some u0)).1.mp hnone).1
                exact absurd this (by simp)
              · rintro ⟨hacc, _⟩
                exact absurd hacc (by simp)
            · intro v hv
              rw [List.foldl_cons, hstep] at hv
              obtain ⟨hprov, hmax, haccle⟩ := (ih (some u0)).2 v hv
              have hu0v : vGT u0 v = false := haccle u0 rfl
              refine ⟨?_, ?_, ?_⟩
              · rcases hprov with h | ⟨l', hl', hp', hpre'⟩
                · exact Or.inl h
                · exact Or.inr ⟨l', List.mem_cons_of_mem _ hl', hp', hpre'⟩
              · intro l' hl' w hw' hwpre
                rcases List.mem_cons.mp hl' with he | hm
                · subst he
                  rw [hp] at hw'
                  injection hw' with he2
                  rw [← he2]
                  exact vGT_trans_le w0 u0 v hgt' hu0v
                · exact hmax l' hm w hw' hwpre
              · intro u hu
                injection hu with hu
                rw [← hu]
                exact hu0v

/-- C1: version selection — labels that fail to parse are skipped, labels
with a pre-release component are skipped, the result is empty exactly when
no candidate remains, and otherwise the result is itself one of the input
labels, parses to a non-prerelease version, and no remaining candidate
compares greater under the semantic-version ordering. -/
theorem C1_version_selection (labels : List Str) :
    (selectLatest labels = [] ↔
      ∀ l ∈ labels, ∀ w, parseVersion l = some w → w.pre ≠ none)
    ∧ (selectLatest labels ≠ [] →
      selectLatest labels ∈ labels
      ∧ ∃ v, parseVersion (selectLatest labels) = some v ∧ v.pre = none
          ∧ ∀ l ∈ labels, ∀ w, parseVersion l = some w → w.pre = none →
              vGT w v = false) := by
  cases hf : labels.foldl selectStep none with
  | none =>
    have hsel : selectLatest labels = [] := by
      unfold selectLatest
      rw [hf]
    constructor
    · rw [hsel]
      exact ⟨fun _ => ((selectFold_spec labels none).1.mp hf).2, fun _ => rfl⟩
    · intro hne
      exact absurd hsel hne
  | some v =>
    obtain ⟨hprov, hmax, _⟩ := (selectFold_spec labels none).2 v hf
    rcases hprov with h | ⟨l, hl, hpl, hpre⟩
    · exact absurd h (by simp)
    · have hrt : renderVersion v = l := renderVersion_parseVersion l v hpl
      have hsel : selectLatest labels = l := by
        unfold selectLatest
        rw [hf]
        exact hrt
      have hlne : l ≠ [] := by
        intro he
        rw [he] at hpl
        have hn : (none : Option SemVer) = some v := by
          rw [← (by decide : parseVersion ([] : Str) = none)]
          exact hpl
        exact Option.noConfusion hn
      constructor
      · rw [hsel]
        constructor
        · intro he
          exact absurd he hlne
        · intro hall
          exact absurd hpre (hall l hl v hpl)
      · intro _
        rw [hsel]
        exact ⟨hl, v, hpl, hpre, hmax⟩

/-- Witness for C1, at the spec's example label set: the selected label is
`1.9.9`, itself a member of the set. -/
theorem C1_version_selection_witness :
    selectLatest demoVersionLabels ∈ demoVersionLabels
    ∧ selectLatest demoVersionLabels = "1.9.9".toList :=
  ⟨((C1_version_selection demoVersionLabels).2 (by decide)).1, by decide⟩

end Upm
